import Mathlib

set_option maxRecDepth 8000

/-!
A shallow embedding of the article-reconciliation logic of
`news_fetcher.py` (functions `load_existing_articles` and
`process_and_merge_articles`), together with proofs of the claims of the spec
about it.

JSON-object fields are modelled with two `Option` layers where the code
can distinguish them: for a field of type `Option (Option String)`,
`none` means the key is absent from the object, `some none` means the key
is present with value `null`, and `some (some s)` means the key holds the
string `s`.  Fields that the code only ever reads through `dict.get(key)`
(which conflates an absent key with a `null` value) are modelled with a
single `Option` layer.
-/

namespace NewsFetcher

/-- A JSON source object as stored in an article record.  The real GNews
payload may carry further keys; the merge logic never reads any of them,
so only `name` is modelled.  `name = none` stands for a missing or null
`name` entry. -/
structure SrcObj where
  name : Option String
  deriving DecidableEq, Repr

/-- A working-archive record: an article object as persisted in
`news.json` or as built by `process_and_merge_articles` (the dict literal
with exactly the keys `source`, `title`, `url`, `urlToImage`,
`publishedAt` — this version of the script emits no `description` key).
Each field uses the two-layer `Option` convention described in the file
header, because the merge reads `url` and `publishedAt` with bracket
access (`article['url']`, `x['publishedAt']`), which distinguishes an
absent key (`KeyError`) from a present `null`. -/
structure Article where
  source : Option (Option SrcObj)
  title : Option (Option String)
  url : Option (Option String)
  urlToImage : Option (Option String)
  publishedAt : Option (Option String)
  deriving DecidableEq, Repr

/-- A raw GNews record.  `title`, `url`, `image` and `publishedAt` are
only read via `article.get(...)`, so absent and null are conflated into
`none`.  `source` is read via `article.get('source', {'name': 'GNews'})`,
whose default fires only when the key is absent, so it keeps both
layers. -/
structure GNewsRaw where
  source : Option (Option SrcObj)
  title : Option String
  url : Option String
  image : Option String
  publishedAt : Option String
  deriving DecidableEq, Repr

/-- A raw NewsData.io record.  `title`, `link`, `image_url` and `pubDate`
are only read via `article.get(...)`; `source_id` is read via
`article.get('source_id', 'NewsData.io')`, so it keeps both layers. -/
structure NewsDataRaw where
  source_id : Option (Option String)
  title : Option String
  link : Option String
  image_url : Option String
  pubDate : Option String
  deriving DecidableEq, Repr

/-- The constant `MAX_ARTICLES_IN_ARCHIVE = 300` from the configuration section. -/
def MAX_ARTICLES_IN_ARCHIVE : Nat := 300

/-- Python truthiness of a value obtained by `dict.get` on a string
field: `None` and the empty string are falsy, every other string is
truthy. -/
def truthy : Option String → Bool
  | none => false
  | some s => s != ""

/-- The two ways the merge can raise: `keyError` models a Python
`KeyError` from bracket access on a missing key; `typeError` models the
`TypeError` raised when `list.sort` compares `None` with another sort
key. -/
inductive MergeError where
  | keyError
  | typeError
  deriving DecidableEq, Repr

/-- Seeding, line 86, `{article['url'] for article in existing_articles}`:
collects the `url` value of every loaded record, raising `KeyError` at
the first record whose object has no `url` key.  A `List` stands in for
the Python set: only membership and insertion are ever used, for which
the two agree. -/
def seedUrls : List Article → Except MergeError (List (Option String))
  | [] => Except.ok []
  | a :: rest =>
    match a.url with
    | none => Except.error MergeError.keyError
    | some v => (seedUrls rest).map (fun us => v :: us)

/-- The dict literal of lines 92–98: the normalized record built from a
raw GNews record.  Every key is present (`some …`); `title`, `url`,
`urlToImage` and `publishedAt` carry the raw `.get` results verbatim. -/
def procGNews (a : GNewsRaw) : Article :=
  { source := some (a.source.getD (some { name := some "GNews" }))
    title := some a.title
    url := some a.url
    urlToImage := some a.image
    publishedAt := some a.publishedAt }

/-- The dict literal of lines 106–112: the normalized record built from a
raw NewsData.io record. -/
def procNewsData (a : NewsDataRaw) : Article :=
  { source := some (some { name := a.source_id.getD (some "NewsData.io") })
    title := some a.title
    url := some a.link
    urlToImage := some a.image_url
    publishedAt := some a.pubDate }

/-- Admission test for a GNews record, line 91:
`if url and url not in existing_urls and article.get('image')` — except
for the duplicate-url test, which depends on the running state. -/
def admissibleG (a : GNewsRaw) : Bool :=
  truthy a.url && truthy a.image

/-- Admission test for a NewsData.io record, line 105. -/
def admissibleN (a : NewsDataRaw) : Bool :=
  truthy a.link && truthy a.image_url

/-- One iteration of the GNews loop (lines 89–100) on the state
`(existing_articles, existing_urls)`. -/
def addGNews (st : List Article × List (Option String)) (a : GNewsRaw) :
    List Article × List (Option String) :=
  if truthy a.url && !(st.2.contains a.url) && truthy a.image then
    (st.1 ++ [procGNews a], st.2 ++ [a.url])
  else st

/-- One iteration of the NewsData.io loop (lines 103–114). -/
def addNewsData (st : List Article × List (Option String)) (a : NewsDataRaw) :
    List Article × List (Option String) :=
  if truthy a.link && !(st.2.contains a.link) && truthy a.image_url then
    (st.1 ++ [procNewsData a], st.2 ++ [a.link])
  else st

/-- Both provider loops run in source order (GNews first, then
NewsData.io) over the state seeded with the loaded archive and its url
set. -/
def mergeWorking (existing : List Article) (urls0 : List (Option String))
    (gnews : List GNewsRaw) (newsdata : List NewsDataRaw) :
    List Article × List (Option String) :=
  newsdata.foldl addNewsData (gnews.foldl addGNews (existing, urls0))

/-- The sort key read by `lambda x: x['publishedAt']` once both error
branches have been excluded; the `getD` defaults are never reached on the
success path. -/
def pubKey (a : Article) : String :=
  (a.publishedAt.getD none).getD ""

/-- The comparison realised by `sort(key=..., reverse=True)`: `a` may
precede `b` exactly when the key of `a` is lexicographically ≥ the key of `b`. -/
def pubDescLE (a b : Article) : Bool :=
  decide (pubKey b ≤ pubKey a)

/-- The sort of line 117,
`existing_articles.sort(key=lambda x: x['publishedAt'], reverse=True)`.  CPython first computes the key of every element in order, so
a record without a `publishedAt` key raises `KeyError` whenever the list
is non-empty (modelled for all lengths; on `[]` both sides are
error-free and equal anyway, as `List.any` is `false` there).  If every
key exists but some is `null`, a `TypeError` is raised as soon as one
comparison touches it; timsort compares every adjacent pair while
detecting runs, so this happens exactly when the list has at least two
elements.  Otherwise the sort is stable descending, which is
`mergeSort` under `pubDescLE`. -/
def sortStep (arts : List Article) : Except MergeError (List Article) :=
  if arts.any (fun a => a.publishedAt.isNone) then Except.error MergeError.keyError
  else if arts.any (fun a => a.publishedAt == some none) && decide (2 ≤ arts.length) then
    Except.error MergeError.typeError
  else Except.ok (arts.mergeSort pubDescLE)

/-- The pipeline of lines 86–117: seed the url set, run both provider
loops, sort.  Exposed as its own stage so that the truncation step can be
stated against it. -/
def sortedStage (existing : List Article) (gnews : List GNewsRaw)
    (newsdata : List NewsDataRaw) : Except MergeError (List Article) := do
  let us ← seedUrls existing
  sortStep (mergeWorking existing us gnews newsdata).1

/-- The function `process_and_merge_articles` (lines 82–124): merge, sort, and trim to
`MAX_ARTICLES_IN_ARCHIVE` when the sorted list exceeds it (lines
119–122). -/
def process_and_merge_articles (existing : List Article)
    (gnews : List GNewsRaw) (newsdata : List NewsDataRaw) :
    Except MergeError (List Article) :=
  (sortedStage existing gnews newsdata).map (fun s =>
    if MAX_ARTICLES_IN_ARCHIVE < s.length then s.take MAX_ARTICLES_IN_ARCHIVE else s)

/-- The states the archive file can be in when the loader runs: absent,
present but not parseable as JSON, or parsed to a JSON object whose
optional `articles` key holds a list of records. (A file parsing to a
non-object is out of scope for the spec and not modelled.) -/
inductive Storage where
  | absent
  | malformed
  | stored (articles : Option (List Article))
  deriving DecidableEq, Repr

/-- The loader `load_existing_articles` (lines 28–36).  Storage is threaded
explicitly to record that the loader only reads: the returned storage
equals the input.  `FileNotFoundError` and `json.JSONDecodeError` are
caught and yield `[]`; a parsed object yields `data.get('articles', [])`. -/
def load_existing_articles : Storage → List Article × Storage
  | Storage.absent => ([], Storage.absent)
  | Storage.malformed => ([], Storage.malformed)
  | Storage.stored arts => (arts.getD [], Storage.stored arts)

/-! ### Helper lemmas about the seeding step -/

/-- The `url` value stored in a record whose `url` key is present. -/
def urlVal (a : Article) : Option String :=
  a.url.getD none

theorem urlVal_procGNews (a : GNewsRaw) : urlVal (procGNews a) = a.url := rfl

theorem urlVal_procNewsData (a : NewsDataRaw) : urlVal (procNewsData a) = a.link := rfl

theorem seedUrls_ok_of {l : List Article} (h : ∀ a ∈ l, a.url.isSome) :
    seedUrls l = Except.ok (l.map urlVal) := by
  induction l with
  | nil => rfl
  | cons a rest ih =>
    obtain ⟨v, hv⟩ := Option.isSome_iff_exists.mp (h a (List.mem_cons_self a rest))
    have hrest := ih (fun x hx => h x (List.mem_cons_of_mem a hx))
    simp [seedUrls, hv, hrest, urlVal, Except.map]

theorem seedUrls_ok_elim {l : List Article} {us : List (Option String)}
    (h : seedUrls l = Except.ok us) :
    us = l.map urlVal ∧ ∀ a ∈ l, a.url.isSome := by
  induction l generalizing us with
  | nil =>
    simp only [seedUrls] at h
    cases h
    simp
  | cons a rest ih =>
    cases hu : a.url with
    | none => rw [seedUrls, hu] at h; cases h
    | some v =>
      rw [seedUrls, hu] at h
      cases hrest : seedUrls rest with
      | error e => rw [hrest] at h; cases h
      | ok us' =>
        rw [hrest] at h
        cases h
        obtain ⟨h1, h2⟩ := ih hrest
        refine ⟨by simp [h1, urlVal, hu], ?_⟩
        intro x hx
        rcases List.mem_cons.mp hx with rfl | hx
        · simp [hu]
        · exact h2 x hx

theorem seedUrls_error_of {l : List Article} {a : Article}
    (ha : a ∈ l) (hu : a.url = none) :
    seedUrls l = Except.error MergeError.keyError := by
  induction ha with
  | head rest => simp [seedUrls, hu]
  | tail b hmem ih =>
    cases hb : b.url with
    | none => simp [seedUrls, hb]
    | some v => simp [seedUrls, hb, ih, Except.map]

/-! ### Helper lemmas about the provider loops -/

theorem foldl_pres {σ β : Type} {f : σ → β → σ} {P : σ → Prop} :
    ∀ {l : List β} (_ : ∀ s b, b ∈ l → P s → P (f s b)) {s : σ} (_ : P s),
      P (l.foldl f s)
  | [], _, _, hs => hs
  | b :: rest, hf, s, hs =>
    foldl_pres (fun s' b' hb' => hf s' b' (List.mem_cons_of_mem b hb'))
      (hf s b (List.mem_cons_self b rest) hs)

theorem addGNews_cases (st : List Article × List (Option String)) (a : GNewsRaw) :
    addGNews st a = st
      ∨ (truthy a.url ∧ a.url ∉ st.2 ∧ truthy a.image
          ∧ addGNews st a = (st.1 ++ [procGNews a], st.2 ++ [a.url])) := by
  unfold addGNews
  split
  case isTrue hc =>
    simp only [Bool.and_eq_true, Bool.not_eq_true', List.contains_eq_any_beq,
      List.any_eq_false, beq_iff_eq] at hc
    refine Or.inr ⟨hc.1.1, ?_, hc.2, rfl⟩
    intro hin
    exact absurd rfl (hc.1.2 a.url hin)
  case isFalse => exact Or.inl rfl

theorem addNewsData_cases (st : List Article × List (Option String)) (a : NewsDataRaw) :
    addNewsData st a = st
      ∨ (truthy a.link ∧ a.link ∉ st.2 ∧ truthy a.image_url
          ∧ addNewsData st a = (st.1 ++ [procNewsData a], st.2 ++ [a.link])) := by
  unfold addNewsData
  split
  case isTrue hc =>
    simp only [Bool.and_eq_true, Bool.not_eq_true', List.contains_eq_any_beq,
      List.any_eq_false, beq_iff_eq] at hc
    refine Or.inr ⟨hc.1.1, ?_, hc.2, rfl⟩
    intro hin
    exact absurd rfl (hc.1.2 a.link hin)
  case isFalse => exact Or.inl rfl

/-! ### Helper lemmas about the sort and trim steps -/

theorem pubDescLE_trans : ∀ a b c : Article, pubDescLE a b → pubDescLE b c → pubDescLE a c := by
  intro a b c h1 h2
  simp only [pubDescLE, decide_eq_true_eq] at h1 h2 ⊢
  exact le_trans h2 h1

theorem pubDescLE_total : ∀ a b : Article, pubDescLE a b || pubDescLE b a := by
  intro a b
  simp only [pubDescLE, Bool.or_eq_true, decide_eq_true_eq]
  exact le_total (pubKey b) (pubKey a)

theorem sortStep_ok_of_conds {l : List Article}
    (h1 : ∀ a ∈ l, a.publishedAt ≠ none)
    (h2 : l.length ≤ 1 ∨ ∀ a ∈ l, a.publishedAt ≠ some none) :
    sortStep l = Except.ok (l.mergeSort pubDescLE) := by
  have c1 : l.any (fun a => a.publishedAt.isNone) = false := by
    simp only [List.any_eq_false, Option.isNone_iff_eq_none]
    exact h1
  have c2 : (l.any (fun a => a.publishedAt == some none) && decide (2 ≤ l.length)) = false := by
    rcases h2 with h2 | h2
    · have : ¬ (2 ≤ l.length) := by omega
      simp [this]
    · have : l.any (fun a => a.publishedAt == some none) = false := by
        simp only [List.any_eq_false, beq_iff_eq]
        exact h2
      simp [this]
  simp [sortStep, c1, c2]

theorem sortStep_ok_elim {l s : List Article} (h : sortStep l = Except.ok s) :
    s = l.mergeSort pubDescLE
    ∧ (∀ a ∈ l, a.publishedAt ≠ none)
    ∧ (l.length ≤ 1 ∨ ∀ a ∈ l, a.publishedAt ≠ some none) := by
  unfold sortStep at h
  by_cases c1 : l.any (fun a => a.publishedAt.isNone) = true
  · rw [if_pos c1] at h; cases h
  · rw [if_neg c1] at h
    by_cases c2 : (l.any (fun a => a.publishedAt == some none) && decide (2 ≤ l.length)) = true
    · rw [if_pos c2] at h; cases h
    · rw [if_neg c2] at h
      cases h
      refine ⟨rfl, ?_, ?_⟩
      · intro a ha
        have := (Bool.not_eq_true _).mp c1
        simp only [List.any_eq_false, Option.isNone_iff_eq_none] at this
        exact this a ha
      · have := (Bool.not_eq_true _).mp c2
        rw [Bool.and_eq_false_iff] at this
        rcases this with hx | hx
        · right
          simp only [List.any_eq_false, beq_iff_eq] at hx
          exact hx
        · left
          simp only [decide_eq_false_iff_not] at hx
          omega

theorem process_ok_elim {existing : List Article} {gnews : List GNewsRaw}
    {newsdata : List NewsDataRaw} {out : List Article}
    (h : process_and_merge_articles existing gnews newsdata = Except.ok out) :
    ∃ us s, seedUrls existing = Except.ok us
      ∧ sortStep (mergeWorking existing us gnews newsdata).1 = Except.ok s
      ∧ out = if MAX_ARTICLES_IN_ARCHIVE < s.length then s.take MAX_ARTICLES_IN_ARCHIVE else s := by
  unfold process_and_merge_articles sortedStage at h
  cases hseed : seedUrls existing with
  | error e => rw [hseed] at h; cases h
  | ok us =>
    rw [hseed] at h
    cases hsort : sortStep (mergeWorking existing us gnews newsdata).1 with
    | error e =>
      rw [show (do
            let us ← Except.ok us
            sortStep (mergeWorking existing us gnews newsdata).1 :
              Except MergeError (List Article)) =
          sortStep (mergeWorking existing us gnews newsdata).1 from rfl, hsort] at h
      cases h
    | ok s =>
      rw [show (do
            let us ← Except.ok us
            sortStep (mergeWorking existing us gnews newsdata).1 :
              Except MergeError (List Article)) =
          sortStep (mergeWorking existing us gnews newsdata).1 from rfl, hsort] at h
      cases h
      exact ⟨us, s, rfl, hsort, rfl⟩

theorem process_ok_of {existing : List Article} {gnews : List GNewsRaw}
    {newsdata : List NewsDataRaw} {us : List (Option String)} {s : List Article}
    (hseed : seedUrls existing = Except.ok us)
    (hsort : sortStep (mergeWorking existing us gnews newsdata).1 = Except.ok s) :
    process_and_merge_articles existing gnews newsdata
      = Except.ok (if MAX_ARTICLES_IN_ARCHIVE < s.length then s.take MAX_ARTICLES_IN_ARCHIVE else s) := by
  unfold process_and_merge_articles sortedStage
  rw [hseed]
  rw [show (do
        let us ← Except.ok us
        sortStep (mergeWorking existing us gnews newsdata).1 :
          Except MergeError (List Article)) =
      sortStep (mergeWorking existing us gnews newsdata).1 from rfl, hsort]
  rfl

/-! ### URL uniqueness invariant -/

/-- Invariant of the provider loops: the working list has pairwise
distinct `url` fields, and the `url` value of every record is registered in
the url set. -/
def InvNodup (st : List Article × List (Option String)) : Prop :=
  (st.1.map Article.url).Nodup ∧ ∀ x ∈ st.1, ∃ v, x.url = some v ∧ v ∈ st.2

theorem addGNews_invNodup (a : GNewsRaw) {st : List Article × List (Option String)}
    (h : InvNodup st) : InvNodup (addGNews st a) := by
  rcases addGNews_cases st a with heq | ⟨-, hnotin, -, heq⟩
  · rw [heq]; exact h
  · rw [heq]
    obtain ⟨hnd, hmem⟩ := h
    constructor
    · rw [List.map_append, List.nodup_append]
      refine ⟨hnd, by simp, ?_⟩
      intro x hx hx2
      simp only [List.map_cons, List.map_nil, List.mem_singleton] at hx2
      subst hx2
      obtain ⟨y, hy, hyurl⟩ := List.mem_map.mp hx
      obtain ⟨v, hv, hvin⟩ := hmem y hy
      rw [hv] at hyurl
      have hva : v = a.url := by
        have : (procGNews a).url = some a.url := rfl
        rw [this] at hyurl
        exact Option.some.inj hyurl
      exact hnotin (hva ▸ hvin)
    · intro x hx
      rcases List.mem_append.mp hx with hx | hx
      · obtain ⟨v, hv, hvin⟩ := hmem x hx
        exact ⟨v, hv, List.mem_append_left _ hvin⟩
      · rw [List.mem_singleton] at hx
        subst hx
        exact ⟨a.url, rfl, List.mem_append_right _ (List.mem_singleton.mpr rfl)⟩

theorem addNewsData_invNodup (a : NewsDataRaw) {st : List Article × List (Option String)}
    (h : InvNodup st) : InvNodup (addNewsData st a) := by
  rcases addNewsData_cases st a with heq | ⟨-, hnotin, -, heq⟩
  · rw [heq]; exact h
  · rw [heq]
    obtain ⟨hnd, hmem⟩ := h
    constructor
    · rw [List.map_append, List.nodup_append]
      refine ⟨hnd, by simp, ?_⟩
      intro x hx hx2
      simp only [List.map_cons, List.map_nil, List.mem_singleton] at hx2
      subst hx2
      obtain ⟨y, hy, hyurl⟩ := List.mem_map.mp hx
      obtain ⟨v, hv, hvin⟩ := hmem y hy
      rw [hv] at hyurl
      have hva : v = a.link := by
        have : (procNewsData a).url = some a.link := rfl
        rw [this] at hyurl
        exact Option.some.inj hyurl
      exact hnotin (hva ▸ hvin)
    · intro x hx
      rcases List.mem_append.mp hx with hx | hx
      · obtain ⟨v, hv, hvin⟩ := hmem x hx
        exact ⟨v, hv, List.mem_append_left _ hvin⟩
      · rw [List.mem_singleton] at hx
        subst hx
        exact ⟨a.link, rfl, List.mem_append_right _ (List.mem_singleton.mpr rfl)⟩

theorem mergeWorking_invNodup {existing : List Article} {us0 : List (Option String)}
    {gnews : List GNewsRaw} {newsdata : List NewsDataRaw}
    (h : InvNodup (existing, us0)) :
    InvNodup (mergeWorking existing us0 gnews newsdata) :=
  foldl_pres (fun _ b _ => addNewsData_invNodup b)
    (foldl_pres (fun _ b _ => addGNews_invNodup b) h)

/-- Shared core of the uniqueness claims: a successful merge over an
archive with pairwise-distinct `url` fields yields an output with
pairwise-distinct `url` fields. -/
theorem process_urls_nodup {existing : List Article} {gnews : List GNewsRaw}
    {newsdata : List NewsDataRaw} {out : List Article}
    (hnd : (existing.map Article.url).Nodup)
    (hok : process_and_merge_articles existing gnews newsdata = Except.ok out) :
    (out.map Article.url).Nodup := by
  obtain ⟨us, s, hseed, hsort, hout⟩ := process_ok_elim hok
  obtain ⟨husval, hsome⟩ := seedUrls_ok_elim hseed
  have hinv0 : InvNodup (existing, us) := by
    refine ⟨hnd, ?_⟩
    intro x hx
    obtain ⟨v, hv⟩ := Option.isSome_iff_exists.mp (hsome x hx)
    exact ⟨v, hv, by
      rw [husval]
      exact List.mem_map.mpr ⟨x, hx, by simp [urlVal, hv]⟩⟩
  obtain ⟨hndW, -⟩ := mergeWorking_invNodup hinv0
  obtain ⟨hs, -, -⟩ := sortStep_ok_elim hsort
  have hperm : List.Perm s (mergeWorking existing us gnews newsdata).1 :=
    hs ▸ List.mergeSort_perm _ _
  have hndS : (s.map Article.url).Nodup := ((hperm.map Article.url).nodup_iff).mpr hndW
  rw [hout]
  split
  · exact hndS.sublist ((List.take_sublist _ _).map _)
  · exact hndS

/-! ### Concrete values used by witnesses -/

/-- A well-formed archived record used to instantiate hypotheses. -/
def artW : Article :=
  { source := none, title := none, url := some (some "a")
    urlToImage := some (some "i"), publishedAt := some (some "2024") }

theorem process_artW : process_and_merge_articles [artW] [] [] = Except.ok [artW] := by
  have hseed : seedUrls [artW] = Except.ok [some "a"] := rfl
  have hsort : sortStep (mergeWorking [artW] [some "a"] [] []).1 = Except.ok [artW] := by
    rw [show (mergeWorking [artW] [some "a"] [] []).1 = [artW] from rfl]
    rw [sortStep_ok_of_conds (by simp [artW]) (by simp), List.mergeSort_singleton]
  have h := process_ok_of hseed hsort
  simpa [MAX_ARTICLES_IN_ARCHIVE] using h

/-- C1: for every run in which the loaded archive has pairwise-distinct
`url` values, the articles list produced by `process_and_merge_articles`
contains no two records with equal `url`: deduplication holds against the
pre-existing archive and within and across the batches of the run. -/
theorem output_urls_nodup (existing : List Article) (gnews : List GNewsRaw)
    (newsdata : List NewsDataRaw) (out : List Article)
    (hnd : (existing.map Article.url).Nodup)
    (hok : process_and_merge_articles existing gnews newsdata = Except.ok out) :
    (out.map Article.url).Nodup :=
  process_urls_nodup hnd hok

theorem output_urls_nodup_witness :
    ((([artW] : List Article).map Article.url).Nodup
        ∧ process_and_merge_articles [artW] [] [] = Except.ok [artW])
    ∧ (([artW] : List Article).map Article.url).Nodup :=
  ⟨⟨by simp, process_artW⟩,
    output_urls_nodup [artW] [] [] [artW] (by simp) process_artW⟩

theorem sortedStage_ok_of {existing : List Article} {gnews : List GNewsRaw}
    {newsdata : List NewsDataRaw} {us : List (Option String)} {s : List Article}
    (hseed : seedUrls existing = Except.ok us)
    (hsort : sortStep (mergeWorking existing us gnews newsdata).1 = Except.ok s) :
    sortedStage existing gnews newsdata = Except.ok s := by
  unfold sortedStage
  rw [hseed]
  simpa using hsort

/-- C4: the output of every successful run has at most
`MAX_ARTICLES_IN_ARCHIVE` records; when the sorted merged list exceeds
the maximum, the output is its first `MAX_ARTICLES_IN_ARCHIVE` elements
(dropping the tail of the descending-sorted list), otherwise the sorted
list itself. -/
theorem output_length_bounded (existing : List Article) (gnews : List GNewsRaw)
    (newsdata : List NewsDataRaw) (out : List Article)
    (hok : process_and_merge_articles existing gnews newsdata = Except.ok out) :
    out.length ≤ MAX_ARTICLES_IN_ARCHIVE
    ∧ ∃ s, sortedStage existing gnews newsdata = Except.ok s
        ∧ (MAX_ARTICLES_IN_ARCHIVE < s.length → out = s.take MAX_ARTICLES_IN_ARCHIVE)
        ∧ (s.length ≤ MAX_ARTICLES_IN_ARCHIVE → out = s) := by
  obtain ⟨us, s, hseed, hsort, hout⟩ := process_ok_elim hok
  have hss := sortedStage_ok_of hseed hsort
  refine ⟨?_, s, hss, ?_, ?_⟩
  · rw [hout]
    split
    · simp
    · omega
  · intro hlt
    rw [hout, if_pos hlt]
  · intro hle
    rw [hout, if_neg (by omega)]

theorem output_length_bounded_witness :
    (process_and_merge_articles [artW] [] [] = Except.ok [artW])
    ∧ ([artW].length ≤ MAX_ARTICLES_IN_ARCHIVE
        ∧ ∃ s, sortedStage [artW] [] [] = Except.ok s
            ∧ (MAX_ARTICLES_IN_ARCHIVE < s.length → [artW] = s.take MAX_ARTICLES_IN_ARCHIVE)
            ∧ (s.length ≤ MAX_ARTICLES_IN_ARCHIVE → [artW] = s)) :=
  ⟨process_artW, output_length_bounded [artW] [] [] [artW] process_artW⟩

/-- A loaded record with no `url` key, as the lenient loader can produce
from valid JSON of the wrong shape. -/
def noUrlArt : Article :=
  { source := none, title := none, url := none, urlToImage := none
    publishedAt := some (some "t") }

/-- C10: the merge reads `article['url']` on every loaded record when
seeding the URL set, so an archive containing a record without a `url`
key fails with a lookup error before producing any output; when every
loaded record has a `url` key this error branch of the seeding step is
unreachable. -/
theorem seed_url_key_access (existing : List Article) (gnews : List GNewsRaw)
    (newsdata : List NewsDataRaw) (a : Article)
    (ha : a ∈ existing) (hu : a.url = none) :
    process_and_merge_articles existing gnews newsdata = Except.error MergeError.keyError
    ∧ ∀ l : List Article, (∀ x ∈ l, x.url ≠ none) → ∃ us, seedUrls l = Except.ok us := by
  constructor
  · unfold process_and_merge_articles sortedStage
    rw [seedUrls_error_of ha hu]
    rfl
  · intro l hl
    refine ⟨l.map urlVal, seedUrls_ok_of ?_⟩
    intro x hx
    cases hxu : x.url with
    | none => exact absurd hxu (hl x hx)
    | some v => simp

theorem seed_url_key_access_witness :
    (noUrlArt ∈ [noUrlArt] ∧ noUrlArt.url = none)
    ∧ (process_and_merge_articles [noUrlArt] [] [] = Except.error MergeError.keyError
        ∧ ∀ l : List Article, (∀ x ∈ l, x.url ≠ none) → ∃ us, seedUrls l = Except.ok us) :=
  ⟨⟨by simp, rfl⟩, seed_url_key_access [noUrlArt] [] [] noUrlArt (by simp) rfl⟩

/-- C8: the loader returns an empty sequence on absent or malformed
storage without raising, returns the `articles` value of a parsed object
(empty when the key is absent), and never mutates storage (the storage
component it threads through is returned unchanged). -/
theorem load_existing_articles_spec (s : Storage) :
    (load_existing_articles s).2 = s
    ∧ (load_existing_articles Storage.absent).1 = []
    ∧ (load_existing_articles Storage.malformed).1 = []
    ∧ ∀ arts, (load_existing_articles (Storage.stored arts)).1 = arts.getD [] := by
  refine ⟨?_, rfl, rfl, fun arts => rfl⟩
  cases s <;> rfl

/-! ### Rejection of records without url or image -/

theorem foldl_addGNews_filter :
    ∀ (l : List GNewsRaw) (st : List Article × List (Option String)),
      l.foldl addGNews st = (l.filter admissibleG).foldl addGNews st
  | [], _ => rfl
  | a :: rest, st => by
    by_cases h : admissibleG a = true
    · rw [List.filter_cons_of_pos h, List.foldl_cons, List.foldl_cons]
      exact foldl_addGNews_filter rest (addGNews st a)
    · have hskip : addGNews st a = st := by
        unfold addGNews
        rw [if_neg]
        intro hc
        apply h
        simp only [Bool.and_eq_true] at hc
        simp [admissibleG, hc.1.1, hc.2]
      rw [List.filter_cons_of_neg (by simpa using h), List.foldl_cons, hskip]
      exact foldl_addGNews_filter rest st

theorem foldl_addNewsData_filter :
    ∀ (l : List NewsDataRaw) (st : List Article × List (Option String)),
      l.foldl addNewsData st = (l.filter admissibleN).foldl addNewsData st
  | [], _ => rfl
  | a :: rest, st => by
    by_cases h : admissibleN a = true
    · rw [List.filter_cons_of_pos h, List.foldl_cons, List.foldl_cons]
      exact foldl_addNewsData_filter rest (addNewsData st a)
    · have hskip : addNewsData st a = st := by
        unfold addNewsData
        rw [if_neg]
        intro hc
        apply h
        simp only [Bool.and_eq_true] at hc
        simp [admissibleN, hc.1.1, hc.2]
      rw [List.filter_cons_of_neg (by simpa using h), List.foldl_cons, hskip]
      exact foldl_addNewsData_filter rest st

/-- C6: a raw record whose url-equivalent or image-equivalent field is
missing, null, or the empty string has no effect whatsoever on the run:
the merge behaves exactly as if every such record (from either provider)
had been removed from its batch, so no corresponding record appears in
the output. -/
theorem rejected_records_no_effect (existing : List Article) (gnews : List GNewsRaw)
    (newsdata : List NewsDataRaw) :
    process_and_merge_articles existing gnews newsdata
      = process_and_merge_articles existing
          (gnews.filter admissibleG) (newsdata.filter admissibleN) := by
  unfold process_and_merge_articles sortedStage mergeWorking
  congr 2
  funext us
  rw [foldl_addGNews_filter, foldl_addNewsData_filter]

/-! ### Title and description of normalized records -/

/-- A raw GNews record with a valid url and image but no title and no
description field. -/
def gNoTitle : GNewsRaw :=
  { source := none, title := none, url := some "u", image := some "i"
    publishedAt := some "p" }

theorem process_gNoTitle :
    process_and_merge_articles [] [gNoTitle] [] = Except.ok [procGNews gNoTitle] := by
  have hfold : (mergeWorking [] ([] : List (Option String)) [gNoTitle] []).1
      = [procGNews gNoTitle] := by
    simp [mergeWorking, addGNews, gNoTitle, truthy]
  have hseed : seedUrls [] = Except.ok ([] : List (Option String)) := rfl
  have hsort : sortStep (mergeWorking [] ([] : List (Option String)) [gNoTitle] []).1
      = Except.ok [procGNews gNoTitle] := by
    rw [hfold]
    rw [sortStep_ok_of_conds (by simp [procGNews, gNoTitle]) (by simp),
      List.mergeSort_singleton]
  have h := process_ok_of hseed hsort
  simpa [MAX_ARTICLES_IN_ARCHIVE] using h

/-- C7 counterexample: a raw record with no title is normalized to a
record whose `title` is null, not the empty string (and the normalized
shape carries no `description` key at all, as the `Article` record type,
which mirrors the dict literal of lines 92–98, shows). -/
theorem title_default_cex :
    process_and_merge_articles [] [gNoTitle] [] = Except.ok [procGNews gNoTitle]
    ∧ (procGNews gNoTitle).title = some none
    ∧ (procGNews gNoTitle).title ≠ some (some "") :=
  ⟨process_gNoTitle, rfl, by simp [procGNews, gNoTitle]⟩

/-- C7 amended: the normalizers copy the raw `title` field verbatim into
the normalized record — a missing or null raw title yields a null
normalized title, not the empty string — and produce no `description`
field (the normalized record shape `Article` has none). -/
theorem title_passthrough_no_default (a : GNewsRaw) (b : NewsDataRaw) :
    (procGNews a).title = some a.title ∧ (procNewsData b).title = some b.title :=
  ⟨rfl, rfl⟩

/-! ### Trust in the publishedAt sort key -/

/-- C9 counterexample: an archive record can carry a string
`publishedAt` yet lack a `url` key, so the precondition of the claim
(every working-archive record has a string `publishedAt`) does not make
the merge error-free: seeding the URL set fails first. -/
theorem merge_error_free_cex :
    (∀ a ∈ [noUrlArt], ∃ s, a.publishedAt = some (some s))
    ∧ process_and_merge_articles [noUrlArt] [] [] = Except.error MergeError.keyError := by
  constructor
  · intro a ha
    rw [List.mem_singleton] at ha
    subst ha
    exact ⟨"t", rfl⟩
  · unfold process_and_merge_articles sortedStage
    rw [seedUrls_error_of (List.mem_singleton.mpr rfl) rfl]
    rfl

/-- Invariant of the provider loops: every working record has a
`publishedAt` key that is present and holds a string. -/
def InvPub (st : List Article × List (Option String)) : Prop :=
  ∀ x ∈ st.1, ∃ s, x.publishedAt = some (some s)

theorem addGNews_invPub {st : List Article × List (Option String)} {a : GNewsRaw}
    (ha : a.publishedAt.isSome) (h : InvPub st) : InvPub (addGNews st a) := by
  rcases addGNews_cases st a with heq | ⟨-, -, -, heq⟩
  · rw [heq]; exact h
  · rw [heq]
    intro x hx
    rcases List.mem_append.mp hx with hx | hx
    · exact h x hx
    · rw [List.mem_singleton] at hx
      subst hx
      obtain ⟨s, hs⟩ := Option.isSome_iff_exists.mp ha
      exact ⟨s, by simp [procGNews, hs]⟩

theorem addNewsData_invPub {st : List Article × List (Option String)} {a : NewsDataRaw}
    (ha : a.pubDate.isSome) (h : InvPub st) : InvPub (addNewsData st a) := by
  rcases addNewsData_cases st a with heq | ⟨-, -, -, heq⟩
  · rw [heq]; exact h
  · rw [heq]
    intro x hx
    rcases List.mem_append.mp hx with hx | hx
    · exact h x hx
    · rw [List.mem_singleton] at hx
      subst hx
      obtain ⟨s, hs⟩ := Option.isSome_iff_exists.mp ha
      exact ⟨s, by simp [procNewsData, hs]⟩

theorem mergeWorking_invPub {existing : List Article} {us0 : List (Option String)}
    {gnews : List GNewsRaw} {newsdata : List NewsDataRaw}
    (hg : ∀ a ∈ gnews, a.publishedAt.isSome)
    (hn : ∀ a ∈ newsdata, a.pubDate.isSome)
    (h : InvPub (existing, us0)) :
    InvPub (mergeWorking existing us0 gnews newsdata) :=
  foldl_pres (fun _ b hb => addNewsData_invPub (hn b hb))
    (foldl_pres (fun _ b hb => addGNews_invPub (hg b hb)) h)

/-- C9 amended: when every loaded record has a `url` key and every
record (loaded or admitted) carries a string `publishedAt`, the merge
completes without error.  Admission itself never reads the publish-time
field: a raw record passing the url/image/duplicate checks is appended
no matter what, a missing publish time becoming a null sort key; and a
null sort key among at least two records makes the sort step fail rather
than sort last. -/
theorem sort_key_trust (existing : List Article) (gnews : List GNewsRaw)
    (newsdata : List NewsDataRaw)
    (hu : ∀ a ∈ existing, a.url.isSome)
    (hp : ∀ a ∈ existing, ∃ s, a.publishedAt = some (some s))
    (hg : ∀ a ∈ gnews, a.publishedAt.isSome)
    (hn : ∀ a ∈ newsdata, a.pubDate.isSome) :
    (∃ out, process_and_merge_articles existing gnews newsdata = Except.ok out)
    ∧ (∀ (st : List Article × List (Option String)) (a : GNewsRaw),
        truthy a.url → a.url ∉ st.2 → truthy a.image →
        addGNews st a = (st.1 ++ [procGNews a], st.2 ++ [a.url]))
    ∧ (∀ a : GNewsRaw, a.publishedAt = none → (procGNews a).publishedAt = some none)
    ∧ (∀ arts : List Article, 2 ≤ arts.length →
        (∀ a ∈ arts, a.publishedAt ≠ none) →
        (∃ a ∈ arts, a.publishedAt = some none) →
        sortStep arts = Except.error MergeError.typeError) := by
  refine ⟨?_, ?_, ?_, ?_⟩
  · have hseed := seedUrls_ok_of hu
    have hinv : InvPub (mergeWorking existing (existing.map urlVal) gnews newsdata) :=
      mergeWorking_invPub hg hn hp
    have hsort := sortStep_ok_of_conds
      (l := (mergeWorking existing (existing.map urlVal) gnews newsdata).1)
      (fun a ha => by obtain ⟨s, hs⟩ := hinv a ha; simp [hs])
      (Or.inr (fun a ha => by obtain ⟨s, hs⟩ := hinv a ha; simp [hs]))
    exact ⟨_, process_ok_of hseed hsort⟩
  · intro st a h1 h2 h3
    unfold addGNews
    rw [if_pos]
    rw [h1, h3, Bool.and_true, Bool.true_and, Bool.not_eq_true', List.contains_eq_any_beq]
    simp only [List.any_eq_false, beq_iff_eq]
    intro x hx hxa
    exact h2 (hxa ▸ hx)
  · intro a ha
    simp [procGNews, ha]
  · intro arts hlen hnone hnull
    unfold sortStep
    rw [if_neg, if_pos]
    · rw [Bool.and_eq_true]
      refine ⟨?_, by simpa using hlen⟩
      rw [List.any_eq_true]
      obtain ⟨a, ha, hpa⟩ := hnull
      exact ⟨a, ha, by simp [hpa]⟩
    · rw [Bool.not_eq_true, List.any_eq_false]
      intro a ha
      simp [Option.isNone_iff_eq_none]
      exact hnone a ha

theorem sort_key_trust_witness :
    ((∀ a ∈ [artW], a.url.isSome)
      ∧ (∀ a ∈ [artW], ∃ s, a.publishedAt = some (some s))
      ∧ (∀ a ∈ ([] : List GNewsRaw), a.publishedAt.isSome)
      ∧ (∀ a ∈ ([] : List NewsDataRaw), a.pubDate.isSome))
    ∧ ((∃ out, process_and_merge_articles [artW] [] [] = Except.ok out)
      ∧ (∀ (st : List Article × List (Option String)) (a : GNewsRaw),
          truthy a.url → a.url ∉ st.2 → truthy a.image →
          addGNews st a = (st.1 ++ [procGNews a], st.2 ++ [a.url]))
      ∧ (∀ a : GNewsRaw, a.publishedAt = none → (procGNews a).publishedAt = some none)
      ∧ (∀ arts : List Article, 2 ≤ arts.length →
          (∀ a ∈ arts, a.publishedAt ≠ none) →
          (∃ a ∈ arts, a.publishedAt = some none) →
          sortStep arts = Except.error MergeError.typeError)) :=
  ⟨⟨by simp [artW], by intro a ha; rw [List.mem_singleton] at ha; exact ⟨"2024", by rw [ha]; rfl⟩,
      by simp, by simp⟩,
    sort_key_trust [artW] [] [] (by simp [artW])
      (by intro a ha; rw [List.mem_singleton] at ha; exact ⟨"2024", by rw [ha]; rfl⟩)
      (by simp) (by simp)⟩

/-! ### Sort order and stability -/

theorem foldl_addGNews_fst_append :
    ∀ (l : List GNewsRaw) (st : List Article × List (Option String)),
      ∃ t, (l.foldl addGNews st).1 = st.1 ++ t
  | [], st => ⟨[], by simp⟩
  | a :: rest, st => by
    obtain ⟨t, ht⟩ := foldl_addGNews_fst_append rest (addGNews st a)
    rcases addGNews_cases st a with heq | ⟨-, -, -, heq⟩
    · rw [List.foldl_cons, ht, heq]
      exact ⟨t, rfl⟩
    · rw [List.foldl_cons, ht, heq]
      exact ⟨[procGNews a] ++ t, by simp⟩

theorem foldl_addNewsData_fst_append :
    ∀ (l : List NewsDataRaw) (st : List Article × List (Option String)),
      ∃ t, (l.foldl addNewsData st).1 = st.1 ++ t
  | [], st => ⟨[], by simp⟩
  | a :: rest, st => by
    obtain ⟨t, ht⟩ := foldl_addNewsData_fst_append rest (addNewsData st a)
    rcases addNewsData_cases st a with heq | ⟨-, -, -, heq⟩
    · rw [List.foldl_cons, ht, heq]
      exact ⟨t, rfl⟩
    · rw [List.foldl_cons, ht, heq]
      exact ⟨[procNewsData a] ++ t, by simp⟩

theorem mergeWorking_fst_append (existing : List Article) (us0 : List (Option String))
    (gnews : List GNewsRaw) (newsdata : List NewsDataRaw) :
    ∃ t, (mergeWorking existing us0 gnews newsdata).1 = existing ++ t := by
  obtain ⟨t1, ht1⟩ := foldl_addGNews_fst_append gnews (existing, us0)
  obtain ⟨t2, ht2⟩ := foldl_addNewsData_fst_append newsdata (gnews.foldl addGNews (existing, us0))
  exact ⟨t1 ++ t2, by rw [mergeWorking, ht2, ht1, List.append_assoc]⟩

theorem filter_key_pairwise (l : List Article) (t : String) :
    (l.filter (fun a => pubKey a == t)).Pairwise (fun a b => pubDescLE a b = true) := by
  apply List.pairwise_of_forall_mem_list
  intro a ha b hb
  rw [List.mem_filter] at ha hb
  have ha2 : pubKey a = t := by simpa using ha.2
  have hb2 : pubKey b = t := by simpa using hb.2
  simp [pubDescLE, ha2, hb2]

theorem mergeSort_filter_key (l : List Article) (t : String) :
    (l.mergeSort pubDescLE).filter (fun a => pubKey a == t)
      = l.filter (fun a => pubKey a == t) := by
  have hsub : List.Sublist (l.filter (fun a => pubKey a == t)) (l.mergeSort pubDescLE) :=
    List.sublist_mergeSort pubDescLE_trans pubDescLE_total
      (filter_key_pairwise l t) (List.filter_sublist l)
  have hsub2 : List.Sublist (l.filter (fun a => pubKey a == t))
      ((l.mergeSort pubDescLE).filter (fun a => pubKey a == t)) := by
    have h2 := hsub.filter (fun a => pubKey a == t)
    rwa [List.filter_filter, show (fun a => (pubKey a == t) && (pubKey a == t))
        = (fun a => pubKey a == t) from funext (fun a => Bool.and_self _)] at h2
  have hlen : ((l.mergeSort pubDescLE).filter (fun a => pubKey a == t)).length
      = (l.filter (fun a => pubKey a == t)).length :=
    ((List.mergeSort_perm l pubDescLE).filter _).length_eq
  exact (hsub2.eq_of_length hlen.symm).symm

theorem filter_take_eq_take_filter {α : Type} (p : α → Bool) :
    ∀ (l : List α) (k : Nat), ∃ m, (l.take k).filter p = (l.filter p).take m
  | _, 0 => ⟨0, by simp⟩
  | [], _ => ⟨0, by simp⟩
  | a :: l, k + 1 => by
    obtain ⟨m, hm⟩ := filter_take_eq_take_filter p l k
    by_cases h : p a = true
    · exact ⟨m + 1, by simp [h, hm]⟩
    · refine ⟨m, ?_⟩
      rw [List.take_succ_cons, List.filter_cons_of_neg (by simpa using h),
        List.filter_cons_of_neg (by simpa using h), hm]

/-- C3: when every record of the run carries a string `publishedAt`, the
output is sorted by `publishedAt` in descending lexicographic order
(every adjacent pair satisfies earlier ≥ later), and the sort is stable:
for each timestamp the output records with that key are an initial
segment, in order, of the working-list records with that key, and the
working list lists the existing-archive records before the newly
appended ones. -/
theorem output_sorted_and_stable (existing : List Article) (gnews : List GNewsRaw)
    (newsdata : List NewsDataRaw) (out : List Article)
    (_hex : ∀ a ∈ existing, ∃ s, a.publishedAt = some (some s))
    (_hg : ∀ a ∈ gnews, a.publishedAt.isSome)
    (_hn : ∀ a ∈ newsdata, a.pubDate.isSome)
    (hok : process_and_merge_articles existing gnews newsdata = Except.ok out) :
    List.Chain' (fun a b => pubKey b ≤ pubKey a) out
    ∧ ∀ us, seedUrls existing = Except.ok us →
        (∃ newrecs, (mergeWorking existing us gnews newsdata).1 = existing ++ newrecs)
        ∧ ∀ t : String, ∃ k,
            out.filter (fun a => pubKey a == t)
              = (((mergeWorking existing us gnews newsdata).1).filter
                  (fun a => pubKey a == t)).take k := by
  obtain ⟨us0, s, hseed, hsort, hout⟩ := process_ok_elim hok
  obtain ⟨hs, -, -⟩ := sortStep_ok_elim hsort
  constructor
  · have hpw : s.Pairwise (fun a b => pubDescLE a b = true) := by
      rw [hs]
      exact List.sorted_mergeSort pubDescLE_trans pubDescLE_total _
    have hpwOut : out.Pairwise (fun a b => pubDescLE a b = true) := by
      rw [hout]
      split
      · exact hpw.sublist (List.take_sublist _ _)
      · exact hpw
    exact (hpwOut.imp (fun h => by simpa [pubDescLE] using h)).chain'
  · intro us hus
    rw [hseed] at hus
    cases hus
    refine ⟨mergeWorking_fst_append existing us0 gnews newsdata, ?_⟩
    intro t
    have hfilt : s.filter (fun a => pubKey a == t)
        = ((mergeWorking existing us0 gnews newsdata).1).filter (fun a => pubKey a == t) := by
      rw [hs]
      exact mergeSort_filter_key _ t
    rw [hout]
    split
    · obtain ⟨m, hm⟩ := filter_take_eq_take_filter
        (fun a => pubKey a == t) s MAX_ARTICLES_IN_ARCHIVE
      exact ⟨m, by rw [hm, hfilt]⟩
    · exact ⟨(s.filter (fun a => pubKey a == t)).length, by rw [← hfilt, List.take_length]⟩

theorem output_sorted_and_stable_witness :
    ((∀ a ∈ [artW], ∃ s, a.publishedAt = some (some s))
      ∧ (∀ a ∈ ([] : List GNewsRaw), a.publishedAt.isSome)
      ∧ (∀ a ∈ ([] : List NewsDataRaw), a.pubDate.isSome)
      ∧ process_and_merge_articles [artW] [] [] = Except.ok [artW])
    ∧ (List.Chain' (fun a b => pubKey b ≤ pubKey a) [artW]
      ∧ ∀ us, seedUrls [artW] = Except.ok us →
          (∃ newrecs, (mergeWorking [artW] us [] []).1 = [artW] ++ newrecs)
          ∧ ∀ t : String, ∃ k,
              List.filter (fun a => pubKey a == t) [artW]
                = (((mergeWorking [artW] us [] []).1).filter
                    (fun a => pubKey a == t)).take k) :=
  have hp : ∀ a ∈ [artW], ∃ s, a.publishedAt = some (some s) := by
    intro a ha
    rw [List.mem_singleton] at ha
    exact ⟨"2024", by rw [ha]; rfl⟩
  ⟨⟨hp, by simp, by simp, process_artW⟩,
    output_sorted_and_stable [artW] [] [] [artW] hp (by simp) (by simp) process_artW⟩

/-! ### Second-run behaviour: the url set determines admissions -/

/-- Invariant: the url set is exactly the image of the working list under
`urlVal` (the loops append to both in lockstep). -/
def InvUrlsEq (st : List Article × List (Option String)) : Prop :=
  st.2 = st.1.map urlVal

theorem addGNews_invUrlsEq {st : List Article × List (Option String)} (a : GNewsRaw)
    (h : InvUrlsEq st) : InvUrlsEq (addGNews st a) := by
  rcases addGNews_cases st a with heq | ⟨-, -, -, heq⟩
  · rw [heq]; exact h
  · rw [heq]
    unfold InvUrlsEq at h ⊢
    simp [h, urlVal_procGNews]

theorem addNewsData_invUrlsEq {st : List Article × List (Option String)} (a : NewsDataRaw)
    (h : InvUrlsEq st) : InvUrlsEq (addNewsData st a) := by
  rcases addNewsData_cases st a with heq | ⟨-, -, -, heq⟩
  · rw [heq]; exact h
  · rw [heq]
    unfold InvUrlsEq at h ⊢
    simp [h, urlVal_procNewsData]

theorem mergeWorking_invUrlsEq {existing : List Article} {us0 : List (Option String)}
    {gnews : List GNewsRaw} {newsdata : List NewsDataRaw}
    (h : us0 = existing.map urlVal) :
    (mergeWorking existing us0 gnews newsdata).2
      = (mergeWorking existing us0 gnews newsdata).1.map urlVal := by
  have h0 : InvUrlsEq (existing, us0) := h
  exact foldl_pres (P := InvUrlsEq) (fun _ b _ => addNewsData_invUrlsEq b)
    (foldl_pres (P := InvUrlsEq) (fun _ b _ => addGNews_invUrlsEq b) h0)

/-- Invariant: every working record has a `url` key. -/
def InvUrlSome (st : List Article × List (Option String)) : Prop :=
  ∀ x ∈ st.1, x.url.isSome

theorem addGNews_invUrlSome {st : List Article × List (Option String)} (a : GNewsRaw)
    (h : InvUrlSome st) : InvUrlSome (addGNews st a) := by
  rcases addGNews_cases st a with heq | ⟨-, -, -, heq⟩
  · rw [heq]; exact h
  · rw [heq]
    intro x hx
    rcases List.mem_append.mp hx with hx | hx
    · exact h x hx
    · rw [List.mem_singleton] at hx
      subst hx
      rfl

theorem addNewsData_invUrlSome {st : List Article × List (Option String)} (a : NewsDataRaw)
    (h : InvUrlSome st) : InvUrlSome (addNewsData st a) := by
  rcases addNewsData_cases st a with heq | ⟨-, -, -, heq⟩
  · rw [heq]; exact h
  · rw [heq]
    intro x hx
    rcases List.mem_append.mp hx with hx | hx
    · exact h x hx
    · rw [List.mem_singleton] at hx
      subst hx
      rfl

theorem mergeWorking_invUrlSome {existing : List Article} {us0 : List (Option String)}
    {gnews : List GNewsRaw} {newsdata : List NewsDataRaw}
    (h : ∀ x ∈ existing, x.url.isSome) :
    InvUrlSome (mergeWorking existing us0 gnews newsdata) := by
  have h0 : InvUrlSome (existing, us0) := h
  exact foldl_pres (P := InvUrlSome) (fun _ b _ => addNewsData_invUrlSome b)
    (foldl_pres (P := InvUrlSome) (fun _ b _ => addGNews_invUrlSome b) h0)

theorem foldl_addGNews_urls_mono {v : Option String} {l : List GNewsRaw}
    {st : List Article × List (Option String)} (h : v ∈ st.2) :
    v ∈ (l.foldl addGNews st).2 := by
  refine foldl_pres
    (P := fun (st : List Article × List (Option String)) => v ∈ st.2)
    (fun s b _ hv => ?_) h
  rcases addGNews_cases s b with heq | ⟨-, -, -, heq⟩
  · rw [heq]; exact hv
  · rw [heq]; exact List.mem_append_left _ hv

theorem foldl_addNewsData_urls_mono {v : Option String} {l : List NewsDataRaw}
    {st : List Article × List (Option String)} (h : v ∈ st.2) :
    v ∈ (l.foldl addNewsData st).2 := by
  refine foldl_pres
    (P := fun (st : List Article × List (Option String)) => v ∈ st.2)
    (fun s b _ hv => ?_) h
  rcases addNewsData_cases s b with heq | ⟨-, -, -, heq⟩
  · rw [heq]; exact hv
  · rw [heq]; exact List.mem_append_left _ hv

/-- Any GNews record that passes the url and image truthiness checks has
its url registered in the url set by the end of the GNews loop, whether
it was admitted or dropped as a duplicate. -/
theorem foldl_addGNews_key_mem :
    ∀ (l : List GNewsRaw) (st : List Article × List (Option String)) (a : GNewsRaw),
      a ∈ l → truthy a.url → truthy a.image → a.url ∈ (l.foldl addGNews st).2
  | [], _, a, h, _, _ => absurd h (List.not_mem_nil a)
  | b :: rest, st, a, h, h1, h2 => by
    rcases List.mem_cons.mp h with rfl | h
    · rw [List.foldl_cons]
      apply foldl_addGNews_urls_mono
      unfold addGNews
      by_cases hc : (truthy a.url && !(st.2.contains a.url) && truthy a.image) = true
      · rw [if_pos hc]
        exact List.mem_append_right _ (List.mem_singleton.mpr rfl)
      · rw [if_neg hc]
        rw [h1, h2, Bool.true_and, Bool.and_true, Bool.not_eq_true',
          Bool.not_eq_false] at hc
        rw [List.contains_eq_any_beq, List.any_eq_true] at hc
        obtain ⟨x, hx, hbeq⟩ := hc
        exact (eq_of_beq hbeq) ▸ hx
    · rw [List.foldl_cons]
      exact foldl_addGNews_key_mem rest (addGNews st b) a h h1 h2

theorem foldl_addNewsData_key_mem :
    ∀ (l : List NewsDataRaw) (st : List Article × List (Option String)) (a : NewsDataRaw),
      a ∈ l → truthy a.link → truthy a.image_url → a.link ∈ (l.foldl addNewsData st).2
  | [], _, a, h, _, _ => absurd h (List.not_mem_nil a)
  | b :: rest, st, a, h, h1, h2 => by
    rcases List.mem_cons.mp h with rfl | h
    · rw [List.foldl_cons]
      apply foldl_addNewsData_urls_mono
      unfold addNewsData
      by_cases hc : (truthy a.link && !(st.2.contains a.link) && truthy a.image_url) = true
      · rw [if_pos hc]
        exact List.mem_append_right _ (List.mem_singleton.mpr rfl)
      · rw [if_neg hc]
        rw [h1, h2, Bool.true_and, Bool.and_true, Bool.not_eq_true',
          Bool.not_eq_false] at hc
        rw [List.contains_eq_any_beq, List.any_eq_true] at hc
        obtain ⟨x, hx, hbeq⟩ := hc
        exact (eq_of_beq hbeq) ▸ hx
    · rw [List.foldl_cons]
      exact foldl_addNewsData_key_mem rest (addNewsData st b) a h h1 h2

/-- When every record of the batch that passes its truthiness checks is
already in the url set, the GNews loop is a no-op. -/
theorem foldl_addGNews_no_op :
    ∀ (l : List GNewsRaw) (st : List Article × List (Option String)),
      (∀ a ∈ l, truthy a.url = true → truthy a.image = true → a.url ∈ st.2) →
      l.foldl addGNews st = st
  | [], _, _ => rfl
  | a :: rest, st, h => by
    have hskip : addGNews st a = st := by
      unfold addGNews
      rw [if_neg]
      intro hc
      rw [Bool.and_eq_true, Bool.and_eq_true] at hc
      obtain ⟨⟨h1, hnc⟩, h2⟩ := hc
      have hmem := h a (List.mem_cons_self a rest) h1 h2
      rw [Bool.not_eq_true', List.contains_eq_any_beq, List.any_eq_false] at hnc
      exact hnc a.url hmem (by simp)
    rw [List.foldl_cons, hskip]
    exact foldl_addGNews_no_op rest st (fun a ha => h a (List.mem_cons_of_mem _ ha))

theorem foldl_addNewsData_no_op :
    ∀ (l : List NewsDataRaw) (st : List Article × List (Option String)),
      (∀ a ∈ l, truthy a.link = true → truthy a.image_url = true → a.link ∈ st.2) →
      l.foldl addNewsData st = st
  | [], _, _ => rfl
  | a :: rest, st, h => by
    have hskip : addNewsData st a = st := by
      unfold addNewsData
      rw [if_neg]
      intro hc
      rw [Bool.and_eq_true, Bool.and_eq_true] at hc
      obtain ⟨⟨h1, hnc⟩, h2⟩ := hc
      have hmem := h a (List.mem_cons_self a rest) h1 h2
      rw [Bool.not_eq_true', List.contains_eq_any_beq, List.any_eq_false] at hnc
      exact hnc a.link hmem (by simp)
    rw [List.foldl_cons, hskip]
    exact foldl_addNewsData_no_op rest st (fun a ha => h a (List.mem_cons_of_mem _ ha))

/-- C2 amended: rerunning the reconciler with identical batches over an
already-merged archive returns that archive unchanged, provided the
first run did not truncate (its output is strictly below
`MAX_ARTICLES_IN_ARCHIVE`).  When the first run truncated, a record
dropped by the size cap can free its url for re-admission and change the
output (see the counterexample). -/
theorem process_idempotent_below_max (archive0 archive : List Article)
    (gnews : List GNewsRaw) (newsdata : List NewsDataRaw)
    (h1 : process_and_merge_articles archive0 gnews newsdata = Except.ok archive)
    (h2 : archive.length < MAX_ARTICLES_IN_ARCHIVE) :
    process_and_merge_articles archive gnews newsdata = Except.ok archive := by
  obtain ⟨us0, s, hseed, hsort, hout⟩ := process_ok_elim h1
  obtain ⟨hs, hnoKey, hnoNull⟩ := sortStep_ok_elim hsort
  obtain ⟨husEq, husSome⟩ := seedUrls_ok_elim hseed
  have hA : archive = s := by
    by_cases hlen : MAX_ARTICLES_IN_ARCHIVE < s.length
    · exfalso
      rw [hout, if_pos hlen, List.length_take] at h2
      omega
    · rw [hout, if_neg hlen]
  subst hA
  have hperm : List.Perm archive (mergeWorking archive0 us0 gnews newsdata).1 :=
    hs ▸ List.mergeSort_perm _ _
  have hwSome : InvUrlSome (mergeWorking archive0 us0 gnews newsdata) :=
    mergeWorking_invUrlSome husSome
  have haSome : ∀ x ∈ archive, x.url.isSome := fun x hx => hwSome x (hperm.mem_iff.mp hx)
  have hseedA : seedUrls archive = Except.ok (archive.map urlVal) := seedUrls_ok_of haSome
  have hw2 : (mergeWorking archive0 us0 gnews newsdata).2
      = (mergeWorking archive0 us0 gnews newsdata).1.map urlVal :=
    mergeWorking_invUrlsEq husEq
  have hmemEq : ∀ v : Option String,
      v ∈ (mergeWorking archive0 us0 gnews newsdata).2 → v ∈ archive.map urlVal := by
    intro v hv
    rw [hw2] at hv
    exact ((hperm.map urlVal).mem_iff).mpr hv
  have hg2 : gnews.foldl addGNews (archive, archive.map urlVal)
      = (archive, archive.map urlVal) := by
    apply foldl_addGNews_no_op
    intro a ha hu hi
    apply hmemEq
    exact foldl_addNewsData_urls_mono (foldl_addGNews_key_mem gnews _ a ha hu hi)
  have hn2 : newsdata.foldl addNewsData (archive, archive.map urlVal)
      = (archive, archive.map urlVal) := by
    apply foldl_addNewsData_no_op
    intro a ha hu hi
    apply hmemEq
    exact foldl_addNewsData_key_mem newsdata _ a ha hu hi
  have hfold2 : mergeWorking archive (archive.map urlVal) gnews newsdata
      = (archive, archive.map urlVal) := by
    unfold mergeWorking
    rw [hg2, hn2]
  have hsorted : archive.Pairwise (fun a b => pubDescLE a b = true) := by
    rw [hs]
    exact List.sorted_mergeSort pubDescLE_trans pubDescLE_total _
  have hfix : archive.mergeSort pubDescLE = archive := List.mergeSort_of_sorted hsorted
  have hsort2 : sortStep (mergeWorking archive (archive.map urlVal) gnews newsdata).1
      = Except.ok archive := by
    rw [hfold2]
    have hcond1 : ∀ a ∈ archive, a.publishedAt ≠ none :=
      fun a ha => hnoKey a (hperm.mem_iff.mp ha)
    have hcond2 : archive.length ≤ 1 ∨ ∀ a ∈ archive, a.publishedAt ≠ some none := by
      rcases hnoNull with h | h
      · left
        rw [hs, List.length_mergeSort]
        exact h
      · right
        exact fun a ha => h a (hperm.mem_iff.mp ha)
    rw [sortStep_ok_of_conds hcond1 hcond2, hfix]
  have hfin := process_ok_of hseedA hsort2
  rw [if_neg (by omega)] at hfin
  exact hfin

theorem process_idempotent_below_max_witness :
    (process_and_merge_articles [artW] [] [] = Except.ok [artW]
      ∧ ([artW] : List Article).length < MAX_ARTICLES_IN_ARCHIVE)
    ∧ process_and_merge_articles [artW] [] [] = Except.ok [artW] :=
  ⟨⟨process_artW, by decide⟩,
    process_idempotent_below_max [artW] [artW] [] [] process_artW (by decide)⟩

/-! ### First-seen-wins retention -/

/-- Retention invariant for a distinguished record `e` with url value
`v`: `v` stays registered in the url set, and `e` is the only working
record carrying that url, unchanged. -/
def InvKeep (v : Option String) (e : Article) (st : List Article × List (Option String)) : Prop :=
  v ∈ st.2 ∧ ∀ x ∈ st.1, x.url = some v → x = e

theorem addGNews_invKeep {v : Option String} {e : Article}
    {st : List Article × List (Option String)} (a : GNewsRaw)
    (h : InvKeep v e st) : InvKeep v e (addGNews st a) := by
  rcases addGNews_cases st a with heq | ⟨-, hnotin, -, heq⟩
  · rw [heq]; exact h
  · rw [heq]
    refine ⟨List.mem_append_left _ h.1, ?_⟩
    intro x hx hxu
    rcases List.mem_append.mp hx with hx | hx
    · exact h.2 x hx hxu
    · rw [List.mem_singleton] at hx
      subst hx
      have hav : a.url = v := Option.some.inj hxu
      exact absurd (hav ▸ h.1) hnotin

theorem addNewsData_invKeep {v : Option String} {e : Article}
    {st : List Article × List (Option String)} (a : NewsDataRaw)
    (h : InvKeep v e st) : InvKeep v e (addNewsData st a) := by
  rcases addNewsData_cases st a with heq | ⟨-, hnotin, -, heq⟩
  · rw [heq]; exact h
  · rw [heq]
    refine ⟨List.mem_append_left _ h.1, ?_⟩
    intro x hx hxu
    rcases List.mem_append.mp hx with hx | hx
    · exact h.2 x hx hxu
    · rw [List.mem_singleton] at hx
      subst hx
      have hav : a.link = v := Option.some.inj hxu
      exact absurd (hav ▸ h.1) hnotin

theorem mergeWorking_invKeep {v : Option String} {e : Article}
    {existing : List Article} {us0 : List (Option String)}
    {gnews : List GNewsRaw} {newsdata : List NewsDataRaw}
    (h : InvKeep v e (existing, us0)) :
    InvKeep v e (mergeWorking existing us0 gnews newsdata) :=
  foldl_pres (P := InvKeep v e) (fun _ b _ => addNewsData_invKeep b)
    (foldl_pres (P := InvKeep v e) (fun _ b _ => addGNews_invKeep b) h)

/-- In a list whose `url` fields are pairwise distinct, where `e` occurs
and every record sharing the url of `e` is `e` itself, filtering by that url
yields exactly `[e]`. -/
theorem filter_url_eq_singleton {l : List Article} {e : Article}
    (hnd : (l.map Article.url).Nodup)
    (hall : ∀ x ∈ l, x.url = e.url → x = e)
    (he : e ∈ l) :
    l.filter (fun x => x.url == e.url) = [e] := by
  induction l with
  | nil => cases he
  | cons a rest ih =>
    rw [List.map_cons, List.nodup_cons] at hnd
    rcases List.mem_cons.mp he with heq | he'
    · subst heq
      rw [List.filter_cons_of_pos (by simp)]
      have hnil : rest.filter (fun x => x.url == e.url) = [] := by
        rw [List.filter_eq_nil_iff]
        intro x hx
        simp only [beq_iff_eq]
        intro hx2
        have hxa : x = e := hall x (List.mem_cons_of_mem _ hx) hx2
        subst hxa
        exact hnd.1 (List.mem_map.mpr ⟨x, hx, hx2⟩)
      rw [hnil]
    · by_cases hae : a.url = e.url
      · have haeq : a = e := hall a (List.mem_cons_self a rest) hae
        exact absurd (List.mem_map.mpr ⟨e, he', by rw [haeq]⟩) hnd.1
      · rw [List.filter_cons_of_neg (by simpa using hae)]
        exact ih hnd.2 (fun x hx h => hall x (List.mem_cons_of_mem _ hx) h) he'

/-- C5 amended: deduplication is first-seen-wins — any output record
carrying the url of an archived record is that record itself, with none of
its fields changed, and the output never holds two records with that
url; when no truncation occurred (output strictly below the size cap)
the output holds exactly one such record, the archived one.  Truncation
can instead drop the record entirely (see the counterexample). -/
theorem dedup_first_seen_wins (existing : List Article) (gnews : List GNewsRaw)
    (newsdata : List NewsDataRaw) (out : List Article) (e : Article)
    (hnd : (existing.map Article.url).Nodup)
    (he : e ∈ existing)
    (hok : process_and_merge_articles existing gnews newsdata = Except.ok out) :
    (∀ a ∈ out, a.url = e.url → a = e)
    ∧ (out.filter (fun a => a.url == e.url) = []
        ∨ out.filter (fun a => a.url == e.url) = [e])
    ∧ (out.length < MAX_ARTICLES_IN_ARCHIVE →
        out.filter (fun a => a.url == e.url) = [e]) := by
  obtain ⟨us0, s, hseed, hsort, hout⟩ := process_ok_elim hok
  obtain ⟨hs, -, -⟩ := sortStep_ok_elim hsort
  obtain ⟨husEq, husSome⟩ := seedUrls_ok_elim hseed
  obtain ⟨v, hv⟩ := Option.isSome_iff_exists.mp (husSome e he)
  have hinv0 : InvKeep v e (existing, us0) := by
    constructor
    · rw [husEq]
      exact List.mem_map.mpr ⟨e, he, by simp [urlVal, hv]⟩
    · intro x hx hxv
      exact List.inj_on_of_nodup_map hnd hx he (by rw [hxv, hv])
  have hik : InvKeep v e (mergeWorking existing us0 gnews newsdata) :=
    mergeWorking_invKeep hinv0
  obtain ⟨-, hkeep⟩ := hik
  have hperm : List.Perm s (mergeWorking existing us0 gnews newsdata).1 :=
    hs ▸ List.mergeSort_perm _ _
  have hmemW : ∀ a ∈ out, a ∈ (mergeWorking existing us0 gnews newsdata).1 := by
    intro a ha
    apply hperm.mem_iff.mp
    rw [hout] at ha
    revert ha
    split
    · exact fun ha => (List.take_sublist _ _).subset ha
    · exact fun ha => ha
  have hone : ∀ a ∈ out, a.url = e.url → a = e := by
    intro a ha hau
    exact hkeep a (hmemW a ha) (by rw [hau, hv])
  refine ⟨hone, ?_, ?_⟩
  · by_cases heo : e ∈ out
    · exact Or.inr (filter_url_eq_singleton (process_urls_nodup hnd hok) hone heo)
    · left
      rw [List.filter_eq_nil_iff]
      intro x hx
      simp only [beq_iff_eq]
      intro hxe
      exact heo (hone x hx hxe ▸ hx)
  · intro hlen
    have hA : out = s := by
      by_cases hl : MAX_ARTICLES_IN_ARCHIVE < s.length
      · exfalso
        rw [hout, if_pos hl, List.length_take] at hlen
        omega
      · rw [hout, if_neg hl]
    have heo : e ∈ out := by
      rw [hA]
      apply hperm.mem_iff.mpr
      obtain ⟨t, ht⟩ := mergeWorking_fst_append existing us0 gnews newsdata
      rw [ht]
      exact List.mem_append_left _ he
    exact filter_url_eq_singleton (process_urls_nodup hnd hok) hone heo

/-! ### Truncation counterexamples -/

theorem addGNews_admit {st : List Article × List (Option String)} {a : GNewsRaw}
    (h1 : truthy a.url = true) (h2 : a.url ∉ st.2) (h3 : truthy a.image = true) :
    addGNews st a = (st.1 ++ [procGNews a], st.2 ++ [a.url]) := by
  unfold addGNews
  rw [if_pos]
  rw [h1, h3, Bool.and_true, Bool.true_and, Bool.not_eq_true',
    List.contains_eq_any_beq]
  simp only [List.any_eq_false, beq_iff_eq]
  intro x hx hxa
  exact h2 (hxa ▸ hx)

/-- Shorthand for a well-formed normalized record with the given url and
publish date. -/
def mkArt (u t : String) : Article :=
  { source := none, title := none, url := some (some u)
    urlToImage := some (some "i"), publishedAt := some (some t) }

/-- The i-th archive url: `i` repetitions of `a`, distinct for distinct
`i`. -/
def urlN (i : Nat) : String := String.mk (List.replicate i 'a')

/-- The contested url, shared by the oldest archived record and the
incoming GNews record. -/
def dupUrl : String := String.mk (List.replicate 1 'b')

/-- A list of 300 records, all dated `"b"`, with pairwise-distinct urls. -/
def bigFront : List Article := (List.range 300).map (fun i => mkArt (urlN i) "b")

/-- The oldest archived record (dated `"a"`), holding the contested
url. -/
def oldArt : Article := mkArt dupUrl "a"

/-- A 301-record archive: the size cap will drop `oldArt`. -/
def bigArchive : List Article := bigFront ++ [oldArt]

/-- A GNews record with the contested url, a valid image, and the newest
date `"c"`. -/
def gDup : GNewsRaw :=
  { source := none, title := none, url := some dupUrl, image := some "i"
    publishedAt := some "c" }

theorem urlN_inj : Function.Injective urlN := by
  intro i j h
  have h2 := congrArg String.data h
  simpa [urlN] using congrArg List.length h2

theorem urlN_ne_dupUrl (i : Nat) : urlN i ≠ dupUrl := by
  intro h
  have h2 := congrArg String.data h
  simp only [urlN, dupUrl] at h2
  have hlen : i = 1 := by simpa using congrArg List.length h2
  subst hlen
  simp at h2

theorem mem_bigFront {x : Article} (hx : x ∈ bigFront) :
    ∃ i, i < 300 ∧ x = mkArt (urlN i) "b" := by
  obtain ⟨i, hi, hxe⟩ := List.mem_map.mp hx
  exact ⟨i, List.mem_range.mp hi, hxe.symm⟩

theorem bigFront_length : bigFront.length = 300 := by
  simp [bigFront]

theorem bigFront_key : ∀ x ∈ bigFront, pubKey x = "b" := by
  intro x hx
  obtain ⟨i, -, hxe⟩ := mem_bigFront hx
  rw [hxe]
  rfl

theorem bigArchive_urlSome : ∀ x ∈ bigArchive, x.url.isSome := by
  intro x hx
  rcases List.mem_append.mp hx with hx | hx
  · obtain ⟨i, -, hxe⟩ := mem_bigFront hx
    rw [hxe]
    rfl
  · rw [List.mem_singleton] at hx
    rw [hx]
    rfl

theorem bigArchive_pub : ∀ x ∈ bigArchive, ∃ s, x.publishedAt = some (some s) := by
  intro x hx
  rcases List.mem_append.mp hx with hx | hx
  · obtain ⟨i, -, hxe⟩ := mem_bigFront hx
    exact ⟨"b", by rw [hxe]; rfl⟩
  · rw [List.mem_singleton] at hx
    exact ⟨"a", by rw [hx]; rfl⟩

theorem bigArchive_sorted : bigArchive.Pairwise (fun a b => pubDescLE a b = true) := by
  unfold bigArchive
  rw [List.pairwise_append]
  refine ⟨?_, by simp, ?_⟩
  · apply List.pairwise_of_forall_mem_list
    intro a ha b hb
    simp [pubDescLE, bigFront_key a ha, bigFront_key b hb]
  · intro a ha b hb
    rw [List.mem_singleton] at hb
    subst hb
    have hb2 : pubKey oldArt = "a" := rfl
    simp only [pubDescLE, bigFront_key a ha, hb2, decide_eq_true_eq]
    rw [String.le_iff_toList_le]
    decide

theorem process_bigArchive :
    process_and_merge_articles bigArchive [gDup] [] = Except.ok bigFront := by
  have hseed : seedUrls bigArchive = Except.ok (bigArchive.map urlVal) :=
    seedUrls_ok_of bigArchive_urlSome
  have hskip : addGNews (bigArchive, bigArchive.map urlVal) gDup
      = (bigArchive, bigArchive.map urlVal) := by
    unfold addGNews
    rw [if_neg]
    intro hc
    rw [Bool.and_eq_true, Bool.and_eq_true] at hc
    obtain ⟨⟨-, hnc⟩, -⟩ := hc
    rw [Bool.not_eq_true', List.contains_eq_any_beq, List.any_eq_false] at hnc
    refine hnc gDup.url ?_ (by simp)
    exact List.mem_map.mpr
      ⟨oldArt, List.mem_append_right _ (List.mem_singleton.mpr rfl), rfl⟩
  have hwork : (mergeWorking bigArchive (bigArchive.map urlVal) [gDup] []).1
      = bigArchive := by
    unfold mergeWorking
    rw [List.foldl_nil, List.foldl_cons, hskip, List.foldl_nil]
  have hsort : sortStep (mergeWorking bigArchive (bigArchive.map urlVal) [gDup] []).1
      = Except.ok bigArchive := by
    rw [hwork, sortStep_ok_of_conds
      (fun a ha => by obtain ⟨s, hs⟩ := bigArchive_pub a ha; simp [hs])
      (Or.inr (fun a ha => by obtain ⟨s, hs⟩ := bigArchive_pub a ha; simp [hs])),
      List.mergeSort_of_sorted bigArchive_sorted]
  have h := process_ok_of hseed hsort
  have hlen : bigArchive.length = 301 := by
    rw [bigArchive, List.length_append, bigFront_length]
    rfl
  rw [if_pos (by rw [hlen]; decide)] at h
  rwa [show bigArchive.take MAX_ARTICLES_IN_ARCHIVE = bigFront from
    List.take_left' (by rw [bigFront_length]; rfl)] at h

theorem gDup_notin_bigFront_urls : gDup.url ∉ bigFront.map urlVal := by
  intro hin
  obtain ⟨x, hx, hxu⟩ := List.mem_map.mp hin
  obtain ⟨i, -, hxe⟩ := mem_bigFront hx
  subst hxe
  exact urlN_ne_dupUrl i (Option.some.inj hxu)

theorem run2_not_id :
    process_and_merge_articles bigFront [gDup] [] ≠ Except.ok bigFront := by
  have hfrontSome : ∀ x ∈ bigFront, x.url.isSome := by
    intro x hx
    obtain ⟨i, -, hxe⟩ := mem_bigFront hx
    rw [hxe]
    rfl
  have hseed : seedUrls bigFront = Except.ok (bigFront.map urlVal) :=
    seedUrls_ok_of hfrontSome
  have hadd : addGNews (bigFront, bigFront.map urlVal) gDup
      = (bigFront ++ [procGNews gDup], bigFront.map urlVal ++ [gDup.url]) :=
    addGNews_admit (by decide) gDup_notin_bigFront_urls (by decide)
  have hwork : (mergeWorking bigFront (bigFront.map urlVal) [gDup] []).1
      = bigFront ++ [procGNews gDup] := by
    unfold mergeWorking
    rw [List.foldl_nil, List.foldl_cons, hadd, List.foldl_nil]
  have hpub : ∀ a ∈ bigFront ++ [procGNews gDup], ∃ s, a.publishedAt = some (some s) := by
    intro a ha
    rcases List.mem_append.mp ha with ha | ha
    · obtain ⟨i, -, hxe⟩ := mem_bigFront ha
      exact ⟨"b", by rw [hxe]; rfl⟩
    · rw [List.mem_singleton] at ha
      exact ⟨"c", by rw [ha]; rfl⟩
  have hsort : sortStep (mergeWorking bigFront (bigFront.map urlVal) [gDup] []).1
      = Except.ok ((bigFront ++ [procGNews gDup]).mergeSort pubDescLE) := by
    rw [hwork]
    exact sortStep_ok_of_conds
      (fun a ha => by obtain ⟨s, hs⟩ := hpub a ha; simp [hs])
      (Or.inr (fun a ha => by obtain ⟨s, hs⟩ := hpub a ha; simp [hs]))
  have hproc := process_ok_of hseed hsort
  intro hcontra
  rw [hproc] at hcontra
  have hlenS : ((bigFront ++ [procGNews gDup]).mergeSort pubDescLE).length = 301 := by
    rw [List.length_mergeSort, List.length_append, bigFront_length]
    rfl
  rw [if_pos (by rw [hlenS]; decide)] at hcontra
  have heq : ((bigFront ++ [procGNews gDup]).mergeSort pubDescLE).take
      MAX_ARTICLES_IN_ARCHIVE = bigFront := Except.ok.inj hcontra
  have hpw : ((bigFront ++ [procGNews gDup]).mergeSort pubDescLE).Pairwise
      (fun a b => pubDescLE a b = true) :=
    List.sorted_mergeSort pubDescLE_trans pubDescLE_total _
  have hg : procGNews gDup ∈ (bigFront ++ [procGNews gDup]).mergeSort pubDescLE := by
    rw [List.mem_mergeSort]
    exact List.mem_append_right _ (List.mem_singleton.mpr rfl)
  have hkey_g : pubKey (procGNews gDup) = "c" := rfl
  have hsplit : ((bigFront ++ [procGNews gDup]).mergeSort pubDescLE).take
        MAX_ARTICLES_IN_ARCHIVE
      ++ ((bigFront ++ [procGNews gDup]).mergeSort pubDescLE).drop
        MAX_ARTICLES_IN_ARCHIVE
      = (bigFront ++ [procGNews gDup]).mergeSort pubDescLE :=
    List.take_append_drop _ _
  rw [← hsplit] at hg hpw
  rcases List.mem_append.mp hg with hin | hin
  · rw [heq] at hin
    have hb := bigFront_key _ hin
    rw [hkey_g] at hb
    exact absurd hb (by decide)
  · obtain ⟨-, -, hcross⟩ := List.pairwise_append.mp hpw
    have hx0 : mkArt (urlN 0) "b" ∈ bigFront :=
      List.mem_map.mpr ⟨0, List.mem_range.mpr (by decide), rfl⟩
    rw [← heq] at hx0
    have hle := hcross _ hx0 _ hin
    rw [pubDescLE, hkey_g] at hle
    have hkx : pubKey (mkArt (urlN 0) "b") = "b" := rfl
    rw [hkx, decide_eq_true_eq, String.le_iff_toList_le] at hle
    exact absurd hle (by decide)

/-- C2 counterexample: a 301-record archive is trimmed, dropping its
oldest record and forgetting the url of that record; rerunning with the same
batch then re-admits a newer record with that url, so the second run
does not return the output of the first run. -/
theorem process_idempotent_cex :
    process_and_merge_articles bigArchive [gDup] [] = Except.ok bigFront
    ∧ process_and_merge_articles bigFront [gDup] [] ≠ Except.ok bigFront :=
  ⟨process_bigArchive, run2_not_id⟩

/-- C5 counterexample: the archive holds a record with the contested url
and the incoming batch repeats that url, yet the output holds no record
with that url at all — the duplicate was dropped and the archived record
was then trimmed away — refuting "the output contains exactly one record
with that url, the existing one". -/
theorem dedup_retention_cex :
    ((bigArchive.map Article.url).Nodup
      ∧ oldArt ∈ bigArchive
      ∧ gDup.url = some dupUrl)
    ∧ process_and_merge_articles bigArchive [gDup] [] = Except.ok bigFront
    ∧ bigFront.filter (fun a => a.url == oldArt.url) = [] := by
  refine ⟨⟨?_, List.mem_append_right _ (List.mem_singleton.mpr rfl), rfl⟩,
    process_bigArchive, ?_⟩
  · rw [bigArchive, List.map_append, List.nodup_append]
    refine ⟨?_, by simp, ?_⟩
    · rw [bigFront, List.map_map]
      refine List.Nodup.map ?_ (List.nodup_range 300)
      intro i j h
      exact urlN_inj (Option.some.inj (Option.some.inj h))
    · intro v hv hv2
      simp only [List.map_cons, List.map_nil, List.mem_singleton] at hv2
      subst hv2
      obtain ⟨x, hx, hxu⟩ := List.mem_map.mp hv
      obtain ⟨i, -, hxe⟩ := mem_bigFront hx
      subst hxe
      exact urlN_ne_dupUrl i (Option.some.inj (Option.some.inj hxu))
  · rw [List.filter_eq_nil_iff]
    intro x hx
    obtain ⟨i, -, hxe⟩ := mem_bigFront hx
    subst hxe
    simp only [beq_iff_eq]
    intro h
    exact urlN_ne_dupUrl i (Option.some.inj (Option.some.inj h))

theorem dedup_first_seen_wins_witness :
    ((([artW] : List Article).map Article.url).Nodup
      ∧ artW ∈ [artW]
      ∧ process_and_merge_articles [artW] [] [] = Except.ok [artW])
    ∧ ((∀ a ∈ [artW], a.url = artW.url → a = artW)
      ∧ (List.filter (fun a => a.url == artW.url) [artW] = []
          ∨ List.filter (fun a => a.url == artW.url) [artW] = [artW])
      ∧ (([artW] : List Article).length < MAX_ARTICLES_IN_ARCHIVE →
          List.filter (fun a => a.url == artW.url) [artW] = [artW])) :=
  ⟨⟨by simp, by simp, process_artW⟩,
    dedup_first_seen_wins [artW] [] [] [artW] artW (by simp) (by simp) process_artW⟩

end NewsFetcher
